import Mathlib

/-!
Verification of the PyClone likelihood engine (`lib/pyclone/model.py`).

The source is a single Python module computing, for one sequencing data point,
the log-likelihood of a cellular-prevalence parameter `phi` under a binomial
mixture model and a beta-binomial mixture model, plus a discretized posterior.

Embedding conventions:
* Python floats are modelled as real numbers `ℝ`; `math.log`, `math.exp` and
  `math.lgamma` become `Real.log`, `Real.exp` and `Real.log |Real.Gamma ·|`.
* `math.lgamma` raises `ValueError` at its poles (nonpositive integers), so it
  is embedded as an `Option ℝ`-valued function and the mixture-weight
  derivation, which is the only place the module calls it, is `Option`-valued.
* The four helpers imported from `pyclone.utils` (`log_sum_exp`,
  `log_binomial_coefficient`, `log_binomial_likelihood`, `log_beta_pdf`) are
  not part of the module; they are modelled from the spec as the standard
  total real functions they name.
* The mutable per-instance memo cache (a Python `OrderedDict`) is modelled by
  explicit state passing: a cache is an insertion-ordered association list
  `List (ℝ × ℝ)`, and `compute_log_likelihood` takes the subtype-specific
  kernel as a function argument (the Python dynamic dispatch) together with
  the current cache, returning the value and the updated cache.
-/

noncomputable section

/-- The finite value of `math.lgamma x`: `log |Γ(x)|`. -/
def lgammaVal (x : ℝ) : ℝ := Real.log |Real.Gamma x|

open Classical in
/-- Python's `math.lgamma`: returns `log |Γ(x)|`, but raises `ValueError`
(modelled as `none`) at the poles of `Γ`, i.e. at `0` and the negative
integers. -/
def log_gamma (x : ℝ) : Option ℝ :=
  if x ≤ 0 ∧ ∃ n : ℤ, x = (n : ℝ) then none else some (lgammaVal x)

/-- Modelled from the spec: `log_sum_exp` is the "log-space sum of
exponentials" of a finite sequence of log-values, `log (Σ exp xᵢ)`
(`pyclone.utils` is outside the module under analysis). -/
def log_sum_exp (xs : List ℝ) : ℝ := Real.log ((xs.map Real.exp).sum)

/-- Modelled from the spec: `log_binomial_coefficient n k` is the "log of
n-choose-k for non-negative integers" (`pyclone.utils` is outside the module
under analysis). -/
def log_binomial_coefficient (n k : ℕ) : ℝ := Real.log (n.choose k)

/-- Modelled from the spec: `log_binomial_likelihood x n mu` is the log
binomial PMF term "given success count, trials, and probability"; the module
adds `log_binomial_coefficient` separately, so this primitive carries the
coefficient-free part `x·log mu + (n−x)·log(1−mu)` (`pyclone.utils` is
outside the module under analysis). -/
def log_binomial_likelihood (x n : ℕ) (mu : ℝ) : ℝ :=
  (x : ℝ) * Real.log mu + ((n : ℝ) - (x : ℝ)) * Real.log (1 - mu)

/-- Modelled from the spec: `log_beta_pdf x a b` is the "log Beta(α,β) density
at a point" (`pyclone.utils` is outside the module under analysis). -/
def log_beta_pdf (x a b : ℝ) : ℝ :=
  (a - 1) * Real.log x + (b - 1) * Real.log (1 - x) -
    (lgammaVal a + lgammaVal b - lgammaVal (a + b))

/-- Source class `DataPoint`: the immutable value record bundling one observation's
inputs (`model.py`, class `DataPoint`). -/
structure DataPoint where
  a : ℕ
  d : ℕ
  mu_r : List ℝ
  mu_v : List ℝ
  delta_r : List ℝ
  delta_v : List ℝ

/-- The inner loop of `Likelihood._get_log_mix_weights`: starting from `acc`,
add `log_gamma delta[j]` for each index `j` in `js` with `j ≠ i`
(`for j, d_j in enumerate(delta): if i != j: log_numerator += log_gamma(d_j)`). -/
def numerator_loop (delta : List ℝ) (i : ℕ) : List ℕ → ℝ → Option ℝ
  | [], acc => some acc
  | j :: rest, acc =>
    if j = i then numerator_loop delta i rest acc
    else do
      let t ← log_gamma (delta.getD j 0)
      numerator_loop delta i rest (acc + t)

/-- The numerator for component `i` in `Likelihood._get_log_mix_weights`:
`log_gamma (delta[i] + 1)` plus the `j ≠ i` terms. -/
def log_numerator (delta : List ℝ) (i : ℕ) : Option ℝ := do
  let init ← log_gamma (delta.getD i 0 + 1)
  numerator_loop delta i (List.range delta.length) init

/-- The outer loop of `Likelihood._get_log_mix_weights`: one weight
`log_numerator i - log_denominator` per index `i`. -/
def mix_weights_loop (delta : List ℝ) (log_denominator : ℝ) :
    List ℕ → Option (List ℝ)
  | [] => some []
  | i :: rest => do
    let n ← log_numerator delta i
    let tail ← mix_weights_loop delta log_denominator rest
    pure ((n - log_denominator) :: tail)

/-- Source method `Likelihood._get_log_mix_weights` (`model.py`): the mixture log-weight
derivation from a pseudo-count sequence `delta`.  `Option`-valued because
`math.lgamma` raises at `0`. -/
def _get_log_mix_weights (delta : List ℝ) : Option (List ℝ) := do
  let log_denominator ← log_gamma (delta.sum + 1)
  mix_weights_loop delta log_denominator (List.range delta.length)

/-- The shared base state set up by `Likelihood.__init__`: copied read
counts, the two log mixture-weight vectors, and the log binomial normalizing
constant.  The memo cache `_ll_cache` is modelled by explicit state passing
(see `compute_log_likelihood`). -/
structure Likelihood where
  a : ℕ
  d : ℕ
  log_pi_r : List ℝ
  log_pi_v : List ℝ
  _log_binomial_norm_const : ℝ

/-- Source constructor `Likelihood.__init__` (`model.py`): derive the log mixture weights from
`delta_r` and `delta_v` and the log binomial coefficient for `(d, a)`.
Fails (propagating `math.lgamma`'s `ValueError`) iff a weight derivation
fails. -/
def Likelihood.init (dp : DataPoint) : Option Likelihood := do
  let log_pi_r ← _get_log_mix_weights dp.delta_r
  let log_pi_v ← _get_log_mix_weights dp.delta_v
  pure ⟨dp.a, dp.d, log_pi_r, log_pi_v, log_binomial_coefficient dp.d dp.a⟩

/-- Source method `Likelihood._log_likelihood` (`model.py`), the abstract base method: the
body is `raise NotImplemented`, which in Python 3 itself raises a `TypeError`
(`NotImplemented` is not an exception); either way the call always fails and
never produces a value, so it is embedded as the constantly-`none` fallible
function. -/
def Likelihood._log_likelihood (_self : Likelihood) (_phi : ℝ) : Option ℝ :=
  none

/-- Source method `Likelihood._log_binomial_likelihood` (`model.py`): the shared binomial
kernel, `mu = (1 - phi)·mu_r + phi·mu_v` and then
`norm_const + log_binomial_likelihood a d mu`. -/
def Likelihood._log_binomial_likelihood (self : Likelihood)
    (phi mu_r mu_v : ℝ) : ℝ :=
  self._log_binomial_norm_const +
    log_binomial_likelihood self.a self.d ((1 - phi) * mu_r + phi * mu_v)

/-- An insertion-ordered memo cache, modelling the `OrderedDict` `_ll_cache`:
earlier list positions were inserted earlier. -/
abbrev LLCache := List (ℝ × ℝ)

open Classical in
/-- Key lookup in the memo cache, Python's `phi in self._ll_cache` /
`self._ll_cache[phi]`: first entry whose key equals `phi` exactly. -/
def cacheLookup (cache : LLCache) (phi : ℝ) : Option ℝ :=
  match cache with
  | [] => none
  | p :: rest => if p.1 = phi then some p.2 else cacheLookup rest phi

/-- Source method `Likelihood.compute_log_likelihood` (`model.py`), with the mutable cache
made explicit and the subtype-specific `_log_likelihood` passed as `f` (the
dynamic dispatch): on a miss, compute `f phi`, append it under key `phi`
(`OrderedDict` insertion order), then drop the oldest entry
(`popitem(last=False)`) if the cache now holds more than 1000 entries. -/
def compute_log_likelihood (f : ℝ → ℝ) (cache : LLCache) (phi : ℝ) :
    ℝ × LLCache :=
  match cacheLookup cache phi with
  | some v => (v, cache)
  | none =>
    let v := f phi
    let cache' := cache ++ [(phi, v)]
    (v, if 1000 < cache'.length then cache'.drop 1 else cache')

/-- Source class `BinomialLikelihood` (`model.py`): the base state plus the copied point
estimates `mu_r`, `mu_v`. -/
structure BinomialLikelihood extends Likelihood where
  mu_r : List ℝ
  mu_v : List ℝ

/-- Source constructor `BinomialLikelihood.__init__` (`model.py`). -/
def BinomialLikelihood.init (dp : DataPoint) : Option BinomialLikelihood := do
  let base ← Likelihood.init dp
  pure ⟨base, dp.mu_r, dp.mu_v⟩

/-- Source method `BinomialLikelihood._log_likelihood` (`model.py`): log-sum-exp over the
zipped cross product of reference and variant components. -/
def BinomialLikelihood._log_likelihood (self : BinomialLikelihood)
    (phi : ℝ) : ℝ :=
  log_sum_exp
    (((self.mu_r.zip self.log_pi_r).map (fun pr =>
      (self.mu_v.zip self.log_pi_v).map (fun pv =>
        pr.2 + pv.2 +
          self.toLikelihood._log_binomial_likelihood phi pr.1 pv.1))).flatten)

/-- The `alpha_v` list built by `BetaBinomialLikelihood._set_beta_params`:
`alpha = s * m` for each `m` in `mu_v`. -/
def set_alpha_v (mu_v : List ℝ) (s : ℝ) : List ℝ :=
  mu_v.map (fun m => s * m)

/-- The `beta_v` list built by `BetaBinomialLikelihood._set_beta_params`:
`beta = s - alpha` for each `m` in `mu_v`. -/
def set_beta_v (mu_v : List ℝ) (s : ℝ) : List ℝ :=
  mu_v.map (fun m => s - s * m)

/-- The `knots` list of `BetaBinomialLikelihood._set_mesh`:
`[i / mesh_size for i in range(0, mesh_size + 1)]`. -/
def knots (mesh_size : ℕ) : List ℝ :=
  (List.range (mesh_size + 1)).map (fun i : ℕ => (i : ℝ) / (mesh_size : ℝ))

/-- The `_mesh` list of `BetaBinomialLikelihood._set_mesh`: bin centers
`(knots[i] + knots[i+1]) / 2` for integration. -/
def mesh_of (mesh_size : ℕ) : List ℝ :=
  (List.range mesh_size).map (fun i =>
    ((knots mesh_size).getD i 0 + (knots mesh_size).getD (i + 1) 0) / 2)

/-- Source class `BetaBinomialLikelihood` (`model.py`): base state plus `mu_r`, the Beta
shape parameter lists, the integration mesh and the log bin width `_log_xi`. -/
structure BetaBinomialLikelihood extends Likelihood where
  mu_r : List ℝ
  alpha_v : List ℝ
  beta_v : List ℝ
  _mesh : List ℝ
  _log_xi : ℝ

/-- Source constructor `BetaBinomialLikelihood.__init__` (`model.py`) with its two keyword
parameters (defaults `mesh_size=100`, `beta_precision=100`):
`_set_beta_params(mu_v, beta_precision)` then `_set_mesh(mesh_size)`
(whose `_log_xi` is `-log(mesh_size)`). -/
def BetaBinomialLikelihood.init (dp : DataPoint) (mesh_size : ℕ)
    (beta_precision : ℝ) : Option BetaBinomialLikelihood := do
  let base ← Likelihood.init dp
  pure ⟨base, dp.mu_r, set_alpha_v dp.mu_v beta_precision,
    set_beta_v dp.mu_v beta_precision, mesh_of mesh_size,
    -Real.log (mesh_size : ℝ)⟩

/-- Source method `BetaBinomialLikelihood._log_beta_binomial_likelihood` (`model.py`):
midpoint Riemann integration of the binomial kernel against the Beta density
over the mesh, combined by log-sum-exp. -/
def BetaBinomialLikelihood._log_beta_binomial_likelihood
    (self : BetaBinomialLikelihood) (phi mu_r alpha_v beta_v : ℝ) : ℝ :=
  log_sum_exp
    (self._mesh.map (fun mu_v =>
      self.toLikelihood._log_binomial_likelihood phi mu_r mu_v +
        log_beta_pdf mu_v alpha_v beta_v + self._log_xi))

/-- Source method `BetaBinomialLikelihood._log_likelihood` (`model.py`): log-sum-exp over
the zipped cross product of reference components and variant Beta
components. -/
def BetaBinomialLikelihood._log_likelihood (self : BetaBinomialLikelihood)
    (phi : ℝ) : ℝ :=
  log_sum_exp
    (((self.mu_r.zip self.log_pi_r).map (fun pr =>
      (self.alpha_v.zip (self.beta_v.zip self.log_pi_v)).map (fun q =>
        pr.2 + q.2.2 +
          self._log_beta_binomial_likelihood phi pr.1 q.1 q.2.1))).flatten)

/-- The `for phi in bin_centres` loop of `get_independent_posterior`: run
`compute_log_likelihood` at each point in order, threading the cache, and
collect the results in order. -/
def run_lls (f : ℝ → ℝ) (phis : List ℝ) (cache : LLCache) :
    List ℝ × LLCache :=
  match phis with
  | [] => ([], cache)
  | phi :: rest =>
    let r := compute_log_likelihood f cache phi
    let t := run_lls f rest r.2
    (r.1 :: t.1, t.2)

/-- Source function `get_independent_posterior` (`model.py`): build a `BinomialLikelihood`,
evaluate it at the centers of `num_bins` equal-width bins of `[0,1]`,
normalize in log space by the log-sum-exp of `ll + log(bin_width)`, and
return the `(bin_centre, density)` pairs. -/
def get_independent_posterior (dp : DataPoint) (num_bins : ℕ) :
    Option (List (ℝ × ℝ)) := do
  let likelihood ← BinomialLikelihood.init dp
  let bin_width : ℝ := 1 / (num_bins : ℝ)
  let endpoints := (List.range (num_bins + 1)).map (fun x : ℕ => (x : ℝ) * bin_width)
  let bin_centres :=
    (endpoints.dropLast.zip (endpoints.drop 1)).map (fun p => (p.1 + p.2) / 2)
  let ll := (run_lls (likelihood._log_likelihood) bin_centres []).1
  let norm_const := log_sum_exp (ll.map (fun x => x + Real.log bin_width))
  let pdf := ll.map (fun x => Real.exp (x - norm_const))
  pure (bin_centres.zip pdf)

/-- The mixture-weight formula as the spec words it (§4.1): for each `i`,
`log_gamma(delta_i + 1) + Σ_{j ≠ i} log_gamma(delta_j) − log_gamma(Σ delta + 1)`,
to be compared with the source-derived `_get_log_mix_weights`. -/
def mix_weights_spec (delta : List ℝ) : List ℝ :=
  (List.range delta.length).map (fun i =>
    lgammaVal (delta.getD i 0 + 1) +
      (((List.range delta.length).filter (fun j => j ≠ i)).map (fun j =>
        lgammaVal (delta.getD j 0))).sum -
      lgammaVal (delta.sum + 1))

/-- A cache is coherent with the kernel `f` when every stored value is the
kernel's value at its key. -/
def CacheCoherent (f : ℝ → ℝ) (cache : LLCache) : Prop :=
  ∀ p ∈ cache, p.2 = f p.1

/-- The bin centers as the spec words them (§4.6 together with the claim
`(i + 1/2) / N`): centers of `N` equal-width bins of `[0,1]`, to be compared
with the center list built inside `get_independent_posterior`. -/
def binCentres (N : ℕ) : List ℝ :=
  (List.range N).map (fun i : ℕ => ((i : ℝ) + 1 / 2) / (N : ℝ))

/-- A concrete example data point, the spec's §8 worked example:
`a = 5`, `d = 10`, `mu_r = mu_v = [0.5]`, `delta_r = delta_v = [1]`. -/
def dpEx : DataPoint := ⟨5, 10, [1 / 2], [1 / 2], [1], [1]⟩

/-- The base likelihood state that `Likelihood.__init__` builds from `dpEx`. -/
def LbaseEx : Likelihood :=
  ⟨5, 10, mix_weights_spec [(1 : ℝ)], mix_weights_spec [(1 : ℝ)],
    log_binomial_coefficient 10 5⟩

/-- The `BinomialLikelihood` built from `dpEx`. -/
def LbinEx : BinomialLikelihood := ⟨LbaseEx, [1 / 2], [1 / 2]⟩

/-- The `BetaBinomialLikelihood` built from `dpEx` with `mesh_size = 2` and
`beta_precision = 100`. -/
def LbetaEx : BetaBinomialLikelihood :=
  ⟨LbaseEx, [1 / 2], set_alpha_v [1 / 2] 100, set_beta_v [1 / 2] 100,
    mesh_of 2, -Real.log ((2 : ℕ) : ℝ)⟩

theorem log_gamma_of_pos {x : ℝ} (hx : 0 < x) :
    log_gamma x = some (lgammaVal x) := by
  unfold log_gamma
  rw [if_neg]
  rintro ⟨hle, -⟩
  exact absurd hx (not_lt.mpr hle)

theorem log_gamma_zero : log_gamma (0 : ℝ) = none := by
  unfold log_gamma
  rw [if_pos ⟨le_refl 0, ⟨0, by norm_num⟩⟩]

theorem numerator_loop_eq (delta : List ℝ) (i : ℕ) (js : List ℕ) (acc : ℝ)
    (h : ∀ j ∈ js, j ≠ i → 0 < delta.getD j 0) :
    numerator_loop delta i js acc =
      some (acc + ((js.filter (fun j => j ≠ i)).map (fun j =>
        lgammaVal (delta.getD j 0))).sum) := by
  induction js generalizing acc with
  | nil => simp [numerator_loop]
  | cons j rest ih =>
    by_cases hj : j = i
    · subst hj
      simp only [numerator_loop, if_pos rfl]
      rw [ih acc (fun j hj hne => h j (List.mem_cons_of_mem _ hj) hne)]
      simp
    · simp only [numerator_loop, if_neg hj]
      rw [log_gamma_of_pos (h j (List.mem_cons_self _ _) hj)]
      simp only [Option.bind_eq_bind, Option.some_bind]
      rw [ih _ (fun j hj hne => h j (List.mem_cons_of_mem _ hj) hne)]
      have : (List.filter (fun j => decide (j ≠ i)) (j :: rest)) =
          j :: List.filter (fun j => decide (j ≠ i)) rest := by
        simp [List.filter_cons, hj]
      simp only [ne_eq, this, List.map_cons, List.sum_cons]
      congr 1
      ring

theorem log_numerator_eq (delta : List ℝ) (i : ℕ) (hi : i < delta.length)
    (hpos : ∀ x ∈ delta, 0 < x) :
    log_numerator delta i =
      some (lgammaVal (delta.getD i 0 + 1) +
        (((List.range delta.length).filter (fun j => j ≠ i)).map (fun j =>
          lgammaVal (delta.getD j 0))).sum) := by
  have hmem : ∀ j, j < delta.length → 0 < delta.getD j 0 := by
    intro j hj
    rw [List.getD_eq_getElem delta 0 hj]
    exact hpos _ (delta.getElem_mem hj)
  have hinit : 0 < delta.getD i 0 + 1 := by
    have := hmem i hi
    linarith
  unfold log_numerator
  rw [log_gamma_of_pos hinit]
  simp only [Option.bind_eq_bind, Option.some_bind]
  exact numerator_loop_eq delta i _ _ (fun j hj _ => hmem j (List.mem_range.mp hj))

theorem mix_weights_loop_eq (delta : List ℝ) (ld : ℝ) (F : ℕ → ℝ)
    (is : List ℕ) (h : ∀ i ∈ is, log_numerator delta i = some (F i)) :
    mix_weights_loop delta ld is = some (is.map (fun i => F i - ld)) := by
  induction is with
  | nil => simp [mix_weights_loop]
  | cons i rest ih =>
    simp only [mix_weights_loop, h i (List.mem_cons_self _ _),
      Option.bind_eq_bind, Option.some_bind]
    rw [ih (fun j hj => h j (List.mem_cons_of_mem _ hj))]
    simp

theorem mix_weights_of_pos (delta : List ℝ) (hpos : ∀ x ∈ delta, 0 < x) :
    _get_log_mix_weights delta = some (mix_weights_spec delta) := by
  have hsum : 0 < delta.sum + 1 := by
    have : 0 ≤ delta.sum := List.sum_nonneg (fun x hx => le_of_lt (hpos x hx))
    linarith
  unfold _get_log_mix_weights
  rw [log_gamma_of_pos hsum]
  simp only [Option.bind_eq_bind, Option.some_bind]
  rw [mix_weights_loop_eq delta _ (fun i =>
      lgammaVal (delta.getD i 0 + 1) +
        (((List.range delta.length).filter (fun j => j ≠ i)).map (fun j =>
          lgammaVal (delta.getD j 0))).sum) _
      (fun i hi => log_numerator_eq delta i (List.mem_range.mp hi) hpos)]
  rfl

theorem mix_weights_length {delta ws : List ℝ}
    (h : _get_log_mix_weights delta = some ws) : ws.length = delta.length := by
  unfold _get_log_mix_weights at h
  cases hld : log_gamma (delta.sum + 1) with
  | none => rw [hld] at h; simp at h
  | some ld =>
    rw [hld] at h
    simp only [Option.bind_eq_bind, Option.some_bind] at h
    have : ∀ (is : List ℕ) (res : List ℝ),
        mix_weights_loop delta ld is = some res → res.length = is.length := by
      intro is
      induction is with
      | nil => intro res hres; simp [mix_weights_loop] at hres; simp [← hres]
      | cons i rest ih =>
        intro res hres
        simp only [mix_weights_loop, Option.bind_eq_bind] at hres
        cases hn : log_numerator delta i with
        | none => rw [hn] at hres; simp at hres
        | some n =>
          rw [hn] at hres
          simp only [Option.some_bind] at hres
          cases ht : mix_weights_loop delta ld rest with
          | none => rw [ht] at hres; simp at hres
          | some tail =>
            rw [ht] at hres
            simp only [Option.some_bind, Option.pure_def, Option.some_inj] at hres
            have := ih tail ht
            simp [← hres, this]
    have := this _ _ h
    simpa using this

theorem range_map_getD {α β : Type} (l : List α) (dflt : α) (f : α → β) :
    (List.range l.length).map (fun i => f (l.getD i dflt)) = l.map f := by
  induction l with
  | nil => simp
  | cons a t ih =>
    rw [List.length_cons, List.range_succ_eq_map]
    simp only [List.map_cons, List.getD_cons_zero, List.map_map]
    rw [← ih]
    rfl

theorem zip_map_eq_range {α β γ : Type} (f : α → β → γ) (da : α) (db : β) :
    ∀ (as : List α) (bs : List β), as.length = bs.length →
      (as.zip bs).map (fun p => f p.1 p.2) =
        (List.range as.length).map (fun i => f (as.getD i da) (bs.getD i db)) := by
  intro as
  induction as with
  | nil => intro bs _; simp
  | cons a as' ih =>
    intro bs hlen
    cases bs with
    | nil => simp at hlen
    | cons b bs' =>
      simp only [List.length_cons, Nat.succ.injEq] at hlen
      rw [List.zip_cons_cons, List.map_cons, List.length_cons,
        List.range_succ_eq_map]
      simp only [List.map_cons, List.getD_cons_zero, List.map_map]
      congr 1
      rw [ih bs' hlen]
      simp [Function.comp]

theorem zip3_map_eq_range {α β γ δ : Type} (f : α → β → γ → δ)
    (da : α) (db : β) (dc : γ) :
    ∀ (as : List α) (bs : List β) (cs : List γ),
      as.length = bs.length → bs.length = cs.length →
      (as.zip (bs.zip cs)).map (fun q => f q.1 q.2.1 q.2.2) =
        (List.range as.length).map (fun i =>
          f (as.getD i da) (bs.getD i db) (cs.getD i dc)) := by
  intro as
  induction as with
  | nil => intro bs cs _ _; simp
  | cons a as' ih =>
    intro bs cs hab hbc
    cases bs with
    | nil => simp at hab
    | cons b bs' =>
      cases cs with
      | nil => simp at hbc
      | cons c cs' =>
        simp only [List.length_cons, Nat.succ.injEq] at hab hbc
        rw [List.zip_cons_cons, List.zip_cons_cons, List.map_cons,
          List.length_cons, List.range_succ_eq_map]
        simp only [List.map_cons, List.getD_cons_zero, List.map_map]
        congr 1
        rw [ih bs' cs' hab hbc]
        simp [Function.comp]

theorem likelihood_init_inv {dp : DataPoint} {L : Likelihood}
    (h : Likelihood.init dp = some L) :
    _get_log_mix_weights dp.delta_r = some L.log_pi_r ∧
      _get_log_mix_weights dp.delta_v = some L.log_pi_v ∧
      L.a = dp.a ∧ L.d = dp.d ∧
      L._log_binomial_norm_const = log_binomial_coefficient dp.d dp.a := by
  unfold Likelihood.init at h
  cases hr : _get_log_mix_weights dp.delta_r with
  | none => rw [hr] at h; simp at h
  | some wr =>
    cases hv : _get_log_mix_weights dp.delta_v with
    | none => rw [hr, hv] at h; simp at h
    | some wv =>
      rw [hr, hv] at h
      simp only [Option.bind_eq_bind, Option.some_bind, Option.pure_def,
        Option.some_inj] at h
      refine ⟨?_, ?_, ?_, ?_, ?_⟩ <;> rw [← h]

theorem binomial_init_inv {dp : DataPoint} {L : BinomialLikelihood}
    (h : BinomialLikelihood.init dp = some L) :
    Likelihood.init dp = some L.toLikelihood ∧
      L.mu_r = dp.mu_r ∧ L.mu_v = dp.mu_v := by
  unfold BinomialLikelihood.init at h
  cases hb : Likelihood.init dp with
  | none => rw [hb] at h; simp at h
  | some base =>
    rw [hb] at h
    simp only [Option.bind_eq_bind, Option.some_bind, Option.pure_def,
      Option.some_inj] at h
    refine ⟨?_, ?_, ?_⟩ <;> rw [← h]


theorem betabinomial_init_inv {dp : DataPoint} {M : ℕ} {s : ℝ}
    {L : BetaBinomialLikelihood}
    (h : BetaBinomialLikelihood.init dp M s = some L) :
    Likelihood.init dp = some L.toLikelihood ∧
      L.mu_r = dp.mu_r ∧ L.alpha_v = set_alpha_v dp.mu_v s ∧
      L.beta_v = set_beta_v dp.mu_v s ∧ L._mesh = mesh_of M ∧
      L._log_xi = -Real.log (M : ℝ) := by
  unfold BetaBinomialLikelihood.init at h
  cases hb : Likelihood.init dp with
  | none => rw [hb] at h; simp at h
  | some base =>
    rw [hb] at h
    simp only [Option.bind_eq_bind, Option.some_bind, Option.pure_def,
      Option.some_inj] at h
    refine ⟨?_, ?_, ?_, ?_, ?_, ?_⟩ <;> rw [← h]


theorem cacheLookup_cons (p : ℝ × ℝ) (rest : LLCache) (phi : ℝ) :
    cacheLookup (p :: rest) phi =
      if p.1 = phi then some p.2 else cacheLookup rest phi := rfl

theorem cacheLookup_eq_none_iff {cache : LLCache} {phi : ℝ} :
    cacheLookup cache phi = none ↔ ∀ p ∈ cache, p.1 ≠ phi := by
  induction cache with
  | nil => simp [cacheLookup]
  | cons p rest ih =>
    rw [cacheLookup_cons]
    by_cases hp : p.1 = phi
    · simp [hp]
    · simp only [if_neg hp, ih, List.mem_cons]
      constructor
      · rintro h q (rfl | hq)
        · exact hp
        · exact h q hq
      · intro h q hq
        exact h q (Or.inr hq)

theorem cacheLookup_some_mem {cache : LLCache} {phi v : ℝ}
    (h : cacheLookup cache phi = some v) : (phi, v) ∈ cache := by
  induction cache with
  | nil => simp [cacheLookup] at h
  | cons p rest ih =>
    rw [cacheLookup_cons] at h
    by_cases hp : p.1 = phi
    · rw [if_pos hp] at h
      obtain rfl : p.2 = v := by simpa using h
      have hpv : (phi, p.2) = p := Prod.ext hp.symm rfl
      rw [hpv]
      exact List.mem_cons_self _ _
    · rw [if_neg hp] at h
      exact List.mem_cons_of_mem _ (ih h)

theorem cacheLookup_append_left {l₁ l₂ : LLCache} {phi v : ℝ}
    (h : cacheLookup l₁ phi = some v) :
    cacheLookup (l₁ ++ l₂) phi = some v := by
  induction l₁ with
  | nil => simp [cacheLookup] at h
  | cons p rest ih =>
    rw [cacheLookup_cons] at h
    rw [List.cons_append, cacheLookup_cons]
    by_cases hp : p.1 = phi
    · rwa [if_pos hp] at h ⊢
    · rw [if_neg hp] at h ⊢
      exact ih h

theorem cacheLookup_append_none {l₁ l₂ : LLCache} {phi : ℝ}
    (h : cacheLookup l₁ phi = none) :
    cacheLookup (l₁ ++ l₂) phi = cacheLookup l₂ phi := by
  induction l₁ with
  | nil => simp
  | cons p rest ih =>
    rw [cacheLookup_cons] at h
    rw [List.cons_append, cacheLookup_cons]
    by_cases hp : p.1 = phi
    · rw [if_pos hp] at h; simp at h
    · rw [if_neg hp] at h ⊢
      exact ih h

theorem compute_hit {f : ℝ → ℝ} {cache : LLCache} {phi v : ℝ}
    (h : cacheLookup cache phi = some v) :
    compute_log_likelihood f cache phi = (v, cache) := by
  unfold compute_log_likelihood
  rw [h]

theorem compute_miss {f : ℝ → ℝ} {cache : LLCache} {phi : ℝ}
    (h : cacheLookup cache phi = none) :
    compute_log_likelihood f cache phi =
      (f phi,
        if 1000 < (cache ++ [(phi, f phi)]).length then
          (cache ++ [(phi, f phi)]).drop 1
        else cache ++ [(phi, f phi)]) := by
  unfold compute_log_likelihood
  rw [h]

theorem compute_fst {f : ℝ → ℝ} {cache : LLCache} (phi : ℝ)
    (hco : CacheCoherent f cache) :
    (compute_log_likelihood f cache phi).1 = f phi := by
  cases h : cacheLookup cache phi with
  | none => rw [compute_miss h]
  | some v =>
    rw [compute_hit h]
    exact hco (phi, v) (cacheLookup_some_mem h)

theorem compute_coherent {f : ℝ → ℝ} {cache : LLCache} (phi : ℝ)
    (hco : CacheCoherent f cache) :
    CacheCoherent f (compute_log_likelihood f cache phi).2 := by
  cases h : cacheLookup cache phi with
  | some v => rw [compute_hit h]; exact hco
  | none =>
    rw [compute_miss h]
    intro p hp
    simp only at hp
    have hmem : p ∈ cache ++ [(phi, f phi)] := by
      by_cases hlen : 1000 < (cache ++ [(phi, f phi)]).length
      · rw [if_pos hlen] at hp
        exact List.mem_of_mem_drop hp
      · rwa [if_neg hlen] at hp
    rcases List.mem_append.mp hmem with hc | he
    · exact hco p hc
    · simp only [List.mem_singleton] at he
      rw [he]

theorem compute_lookup_self {f : ℝ → ℝ} {cache : LLCache} (phi : ℝ) :
    cacheLookup (compute_log_likelihood f cache phi).2 phi =
      some ((compute_log_likelihood f cache phi).1) := by
  cases h : cacheLookup cache phi with
  | some v => rw [compute_hit h]; exact h
  | none =>
    rw [compute_miss h]
    simp only
    by_cases hlen : 1000 < (cache ++ [(phi, f phi)]).length
    · rw [if_pos hlen]
      have hne : 1 ≤ cache.length := by
        simp only [List.length_append, List.length_cons, List.length_nil] at hlen
        omega
      rw [List.drop_append_of_le_length hne]
      have hdrop : cacheLookup (cache.drop 1) phi = none := by
        rw [cacheLookup_eq_none_iff]
        intro p hp
        exact cacheLookup_eq_none_iff.mp h p (List.mem_of_mem_drop hp)
      rw [cacheLookup_append_none hdrop]
      simp [cacheLookup]
    · rw [if_neg hlen, cacheLookup_append_none h]
      simp [cacheLookup]

theorem compute_idem {f : ℝ → ℝ} {cache : LLCache} (phi : ℝ) :
    compute_log_likelihood f (compute_log_likelihood f cache phi).2 phi =
      ((compute_log_likelihood f cache phi).1,
        (compute_log_likelihood f cache phi).2) :=
  compute_hit (compute_lookup_self phi)

theorem run_lls_nil (f : ℝ → ℝ) (cache : LLCache) :
    run_lls f [] cache = ([], cache) := rfl

theorem run_lls_cons (f : ℝ → ℝ) (phi : ℝ) (rest : List ℝ) (cache : LLCache) :
    run_lls f (phi :: rest) cache =
      ((compute_log_likelihood f cache phi).1 ::
          (run_lls f rest (compute_log_likelihood f cache phi).2).1,
        (run_lls f rest (compute_log_likelihood f cache phi).2).2) := rfl

theorem run_lls_map {f : ℝ → ℝ} (phis : List ℝ) (cache : LLCache)
    (hco : CacheCoherent f cache) :
    (run_lls f phis cache).1 = phis.map f ∧
      CacheCoherent f (run_lls f phis cache).2 := by
  induction phis generalizing cache with
  | nil => exact ⟨rfl, hco⟩
  | cons phi rest ih =>
    rw [run_lls_cons]
    obtain ⟨h1, h2⟩ := ih (compute_log_likelihood f cache phi).2
      (compute_coherent phi hco)
    exact ⟨by rw [List.map_cons, compute_fst phi hco, h1], h2⟩

theorem run_lls_append (f : ℝ → ℝ) (l₁ l₂ : List ℝ) (cache : LLCache) :
    (run_lls f (l₁ ++ l₂) cache).2 =
      (run_lls f l₂ ((run_lls f l₁ cache).2)).2 := by
  induction l₁ generalizing cache with
  | nil => rfl
  | cons x rest ih =>
    rw [List.cons_append, run_lls_cons, run_lls_cons]
    exact ih _

theorem cacheLookup_map_pair_none {f : ℝ → ℝ} {ps : List ℝ} {phi : ℝ}
    (h : phi ∉ ps) :
    cacheLookup (ps.map (fun p => (p, f p))) phi = none := by
  rw [cacheLookup_eq_none_iff]
  intro q hq
  obtain ⟨x, hx, rfl⟩ := List.mem_map.mp hq
  intro hcontra
  exact h (hcontra ▸ hx)

theorem run_lls_fresh (f : ℝ → ℝ) :
    ∀ (phis ps : List ℝ), (ps ++ phis).Nodup →
      ps.length + phis.length ≤ 1000 →
      (run_lls f phis (ps.map (fun p => (p, f p)))).2 =
        (ps ++ phis).map (fun p => (p, f p)) := by
  intro phis
  induction phis with
  | nil => intro ps _ _; simp [run_lls]
  | cons phi rest ih =>
    intro ps hnd hlen
    have hphi_not : phi ∉ ps := by
      rw [List.nodup_append] at hnd
      intro hmem
      exact hnd.2.2 hmem (List.mem_cons_self _ _)
    rw [run_lls_cons,
      compute_miss (cacheLookup_map_pair_none hphi_not)]
    simp only
    have hlen' : ¬ 1000 < (ps.map (fun p => (p, f p)) ++ [(phi, f phi)]).length := by
      simp only [List.length_append, List.length_map, List.length_cons,
        List.length_nil, List.length_cons] at hlen ⊢
      omega
    rw [if_neg hlen']
    have hmap : ps.map (fun p => (p, f p)) ++ [(phi, f phi)] =
        (ps ++ [phi]).map (fun p => (p, f p)) := by
      rw [List.map_append]
      rfl
    rw [hmap]
    have hnd' : ((ps ++ [phi]) ++ rest).Nodup := by
      rw [← List.append_cons]
      exact hnd
    have hlen'' : (ps ++ [phi]).length + rest.length ≤ 1000 := by
      simp only [List.length_append, List.length_cons, List.length_nil]
      simp only [List.length_cons] at hlen
      omega
    rw [ih (ps ++ [phi]) hnd' hlen'']
    rw [← List.append_cons]

theorem knots_getD {M i : ℕ} (hi : i < M + 1) :
    (knots M).getD i 0 = (i : ℝ) / (M : ℝ) := by
  unfold knots
  rw [List.getD_eq_getElem _ _ (by simpa using hi)]
  simp only [List.getElem_map, List.getElem_range]

theorem mesh_length (M : ℕ) : (mesh_of M).length = M := by
  simp [mesh_of]

theorem mesh_getD {M i : ℕ} (hM : 1 ≤ M) (hi : i < M) :
    (mesh_of M).getD i 0 = (2 * (i : ℝ) + 1) / (2 * (M : ℝ)) := by
  unfold mesh_of
  rw [List.getD_eq_getElem _ _ (by simpa using hi)]
  simp only [List.getElem_map, List.getElem_range]
  rw [knots_getD (by omega), knots_getD (by omega)]
  have hM0 : (M : ℝ) ≠ 0 := Nat.cast_ne_zero.mpr (by omega)
  push_cast
  field_simp
  ring

theorem mesh_mem_Ioo {M : ℕ} (hM : 1 ≤ M) :
    ∀ x ∈ mesh_of M, 0 < x ∧ x < 1 := by
  intro x hx
  unfold mesh_of at hx
  obtain ⟨i, hi, rfl⟩ := List.mem_map.mp hx
  have hi' : i < M := List.mem_range.mp hi
  have heq : ((knots M).getD i 0 + (knots M).getD (i + 1) 0) / 2 =
      (2 * (i : ℝ) + 1) / (2 * (M : ℝ)) := by
    rw [knots_getD (by omega), knots_getD (by omega)]
    have hM0 : (M : ℝ) ≠ 0 := Nat.cast_ne_zero.mpr (by omega)
    push_cast
    field_simp
    ring
  rw [heq]
  have hMpos : (0 : ℝ) < 2 * (M : ℝ) := by
    have : (0 : ℝ) < (M : ℝ) := by exact_mod_cast (show 0 < M by omega)
    linarith
  constructor
  · apply div_pos _ hMpos
    positivity
  · rw [div_lt_one hMpos]
    have : (i : ℝ) + 1 ≤ (M : ℝ) := by exact_mod_cast hi'
    linarith

theorem mesh_pairwise {M : ℕ} (hM : 1 ≤ M) :
    List.Pairwise (· < ·) (mesh_of M) := by
  rw [List.pairwise_iff_getElem]
  intro i j hi hj hij
  rw [mesh_length] at hi hj
  rw [← List.getD_eq_getElem _ 0 (by rw [mesh_length]; exact hi),
    ← List.getD_eq_getElem _ 0 (by rw [mesh_length]; exact hj),
    mesh_getD hM hi, mesh_getD hM hj]
  have hMpos : (0 : ℝ) < 2 * (M : ℝ) := by
    have : (0 : ℝ) < (M : ℝ) := by exact_mod_cast (show 0 < M by omega)
    linarith
  rw [div_lt_div_iff_of_pos_right hMpos]
  have : (i : ℝ) < (j : ℝ) := by exact_mod_cast hij
  linarith

theorem exp_list_sum (l : List ℝ) :
    Real.exp l.sum = (l.map Real.exp).prod := by
  induction l with
  | nil => simp
  | cons x t ih => simp [Real.exp_add, ih]

theorem exp_lgammaVal {x : ℝ} (hx : 0 < x) :
    Real.exp (lgammaVal x) = Real.Gamma x := by
  unfold lgammaVal
  rw [abs_of_pos (Real.Gamma_pos_of_pos hx),
    Real.exp_log (Real.Gamma_pos_of_pos hx)]

theorem sum_map_exp_nonneg (l : List ℝ) : 0 ≤ (l.map Real.exp).sum :=
  List.sum_nonneg (by
    intro x hx
    obtain ⟨y, _, rfl⟩ := List.mem_map.mp hx
    exact (Real.exp_pos y).le)

theorem sum_map_exp_pos {l : List ℝ} (h : l ≠ []) :
    0 < (l.map Real.exp).sum := by
  cases l with
  | nil => exact absurd rfl h
  | cons x t =>
    rw [List.map_cons, List.sum_cons]
    exact add_pos_of_pos_of_nonneg (Real.exp_pos x) (sum_map_exp_nonneg t)

theorem filter_ne_sum (g : ℕ → ℝ) :
    ∀ (n i : ℕ), i < n →
      (((List.range n).filter (fun j => j ≠ i)).map g).sum =
        ((List.range n).map g).sum - g i := by
  intro n
  induction n with
  | zero => intro i hi; omega
  | succ n ih =>
    intro i hi
    rw [List.range_succ, List.filter_append, List.map_append, List.sum_append,
      List.map_append, List.sum_append]
    by_cases hin : i = n
    · subst hin
      have hfil : (List.range i).filter (fun j => j ≠ i) = List.range i := by
        rw [List.filter_eq_self]
        intro a ha
        simpa using Nat.ne_of_lt (List.mem_range.mp ha)
      have hsingle : ([i].filter (fun j => j ≠ i)) = [] := by simp
      rw [hfil, hsingle]
      simp
    · have hi' : i < n := by omega
      have hsingle : ([n].filter (fun j => j ≠ i)) = [n] := by
        simp [Ne.symm, hin]
      rw [hsingle, ih i hi']
      simp only [List.map_cons, List.map_nil, List.sum_cons, List.sum_nil]
      ring

theorem range_map_getD_self (l : List ℝ) :
    (List.range l.length).map (fun i => l.getD i 0) = l := by
  have h := range_map_getD l 0 id
  rw [List.map_id] at h
  exact h

theorem mix_weights_spec_sum_exp (delta : List ℝ) (hk : 1 ≤ delta.length)
    (hpos : ∀ x ∈ delta, 0 < x) :
    ((mix_weights_spec delta).map Real.exp).sum =
      (delta.map Real.Gamma).prod / Real.Gamma delta.sum := by
  have hgetD : ∀ j, j < delta.length → 0 < delta.getD j 0 := by
    intro j hj
    rw [List.getD_eq_getElem delta 0 hj]
    exact hpos _ (delta.getElem_mem hj)
  have hS : 0 < delta.sum := by
    cases delta with
    | nil => simp at hk
    | cons x t =>
      rw [List.sum_cons]
      have hx := hpos x (List.mem_cons_self _ _)
      have ht : 0 ≤ t.sum :=
        List.sum_nonneg (fun y hy => (hpos y (List.mem_cons_of_mem _ hy)).le)
      linarith
  have hT : Real.exp
        (((List.range delta.length).map (fun j =>
          lgammaVal (delta.getD j 0))).sum) =
      (delta.map Real.Gamma).prod := by
    rw [exp_list_sum, List.map_map]
    have hcongr : ((List.range delta.length).map
          (Real.exp ∘ fun j => lgammaVal (delta.getD j 0))) =
        (List.range delta.length).map (fun j => Real.Gamma (delta.getD j 0)) := by
      apply List.map_congr_left
      intro j hj
      exact exp_lgammaVal (hgetD j (List.mem_range.mp hj))
    rw [hcongr, range_map_getD delta 0 Real.Gamma]
  have hmap : (mix_weights_spec delta).map Real.exp =
      (List.range delta.length).map (fun i =>
        delta.getD i 0 *
          ((delta.map Real.Gamma).prod / Real.Gamma (delta.sum + 1))) := by
    unfold mix_weights_spec
    rw [List.map_map]
    apply List.map_congr_left
    intro i hi
    have hi' := List.mem_range.mp hi
    have hdi := hgetD i hi'
    simp only [Function.comp]
    rw [filter_ne_sum _ _ _ hi']
    set d_i := delta.getD i 0 with hd_i
    rw [show lgammaVal (d_i + 1) +
        (((List.range delta.length).map (fun j =>
          lgammaVal (delta.getD j 0))).sum - lgammaVal d_i) -
        lgammaVal (delta.sum + 1) =
        lgammaVal (d_i + 1) +
          ((List.range delta.length).map (fun j =>
            lgammaVal (delta.getD j 0))).sum - lgammaVal d_i -
          lgammaVal (delta.sum + 1) by ring]
    rw [Real.exp_sub, Real.exp_sub, Real.exp_add]
    rw [exp_lgammaVal (by linarith), exp_lgammaVal hdi,
      exp_lgammaVal (by linarith), hT]
    rw [Real.Gamma_add_one (ne_of_gt hdi)]
    have hGdi : Real.Gamma d_i ≠ 0 :=
      ne_of_gt (Real.Gamma_pos_of_pos hdi)
    have hGS1 : Real.Gamma (delta.sum + 1) ≠ 0 :=
      ne_of_gt (Real.Gamma_pos_of_pos (by linarith))
    field_simp
    ring
  rw [hmap, List.sum_map_mul_right, range_map_getD_self delta]
  rw [Real.Gamma_add_one (ne_of_gt hS)]
  have hGS : Real.Gamma delta.sum ≠ 0 := ne_of_gt (Real.Gamma_pos_of_pos hS)
  field_simp
  ring

theorem binCentres_length (N : ℕ) : (binCentres N).length = N := by
  simp [binCentres]

theorem binCentres_pairwise (N : ℕ) :
    List.Pairwise (· < ·) (binCentres N) := by
  rw [List.pairwise_iff_getElem]
  intro i j hi hj hij
  rw [binCentres_length] at hi hj
  have hN : 0 < N := by omega
  simp only [binCentres, List.getElem_map, List.getElem_range]
  have hNpos : (0 : ℝ) < (N : ℝ) := by exact_mod_cast hN
  rw [div_lt_div_iff_of_pos_right hNpos]
  have : (i : ℝ) < (j : ℝ) := by exact_mod_cast hij
  linarith

theorem posterior_bin_centres (N : ℕ) (hN : 1 ≤ N) :
    ((((List.range (N + 1)).map
        (fun x : ℕ => (x : ℝ) * (1 / (N : ℝ)))).dropLast.zip
      (((List.range (N + 1)).map
        (fun x : ℕ => (x : ℝ) * (1 / (N : ℝ)))).drop 1)).map
      (fun p => (p.1 + p.2) / 2)) = binCentres N := by
  apply List.ext_getElem
  · simp [binCentres]
  · intro i h1 h2
    have hi : i < N := by
      rw [binCentres_length] at h2
      exact h2
    simp only [binCentres, List.getElem_map, List.getElem_zip,
      List.getElem_dropLast, List.getElem_drop, List.getElem_range]
    have hN0 : (N : ℝ) ≠ 0 := Nat.cast_ne_zero.mpr (by omega)
    push_cast
    field_simp
    ring

theorem cacheCoherent_nil (f : ℝ → ℝ) : CacheCoherent f [] := by
  intro p hp
  simp at hp

theorem pdf_sum_eq_one (ll : List ℝ) (w : ℝ) (hw : 0 < w) (hne : ll ≠ []) :
    ((ll.map (fun x =>
      Real.exp (x - log_sum_exp (ll.map (fun y => y + Real.log w))))).map
      (fun d => d * w)).sum = 1 := by
  have hSpos : 0 < (ll.map Real.exp).sum := sum_map_exp_pos hne
  have hinner : ((ll.map (fun y => y + Real.log w)).map Real.exp).sum =
      (ll.map Real.exp).sum * w := by
    rw [List.map_map]
    have hcongr : (ll.map (Real.exp ∘ fun y => y + Real.log w)) =
        ll.map (fun y => Real.exp y * w) := by
      apply List.map_congr_left
      intro y _
      simp only [Function.comp]
      rw [Real.exp_add, Real.exp_log hw]
    rw [hcongr, List.sum_map_mul_right]
  have hexpc : Real.exp (log_sum_exp (ll.map (fun y => y + Real.log w))) =
      (ll.map Real.exp).sum * w := by
    unfold log_sum_exp
    rw [hinner, Real.exp_log (mul_pos hSpos hw)]
  rw [List.map_map]
  have hcongr2 : (ll.map ((fun d => d * w) ∘ fun x =>
      Real.exp (x - log_sum_exp (ll.map (fun y => y + Real.log w))))) =
      ll.map (fun x => Real.exp x *
        ((Real.exp (log_sum_exp (ll.map (fun y => y + Real.log w))))⁻¹ * w)) := by
    apply List.map_congr_left
    intro x _
    simp only [Function.comp]
    rw [Real.exp_sub]
    ring
  rw [hcongr2, List.sum_map_mul_right, hexpc]
  field_simp

theorem mw_singleton_one :
    _get_log_mix_weights [(1 : ℝ)] = some (mix_weights_spec [(1 : ℝ)]) :=
  mix_weights_of_pos _ (by
    intro x hx
    rw [List.mem_singleton] at hx
    rw [hx]
    norm_num)

theorem likelihood_init_ex : Likelihood.init dpEx = some LbaseEx := by
  show (do
    let log_pi_r ← _get_log_mix_weights [(1 : ℝ)]
    let log_pi_v ← _get_log_mix_weights [(1 : ℝ)]
    pure (⟨5, 10, log_pi_r, log_pi_v,
      log_binomial_coefficient 10 5⟩ : Likelihood)) = some LbaseEx
  rw [mw_singleton_one]
  rfl

theorem binomial_init_ex : BinomialLikelihood.init dpEx = some LbinEx := by
  show (do
    let base ← Likelihood.init dpEx
    pure (⟨base, [1 / 2], [1 / 2]⟩ : BinomialLikelihood)) = some LbinEx
  rw [likelihood_init_ex]
  rfl

theorem betabinomial_init_ex :
    BetaBinomialLikelihood.init dpEx 2 100 = some LbetaEx := by
  show (do
    let base ← Likelihood.init dpEx
    pure (⟨base, [1 / 2], set_alpha_v [1 / 2] 100, set_beta_v [1 / 2] 100,
      mesh_of 2, -Real.log ((2 : ℕ) : ℝ)⟩ : BetaBinomialLikelihood)) =
      some LbetaEx
  rw [likelihood_init_ex]
  rfl

theorem numerator_two_zero (x : ℝ) (hx : 0 ≤ x) :
    log_numerator [x, 0] 0 = none := by
  unfold log_numerator
  rw [show ([x, (0 : ℝ)].getD 0 0 + 1) = x + 1 from by simp]
  rw [log_gamma_of_pos (by linarith)]
  simp only [Option.bind_eq_bind, Option.some_bind]
  rw [show List.range ([x, (0 : ℝ)].length) = [0, 1] from by rfl]
  simp [numerator_loop, log_gamma_zero]

theorem mw_two_zero (x : ℝ) (hx : 0 ≤ x) :
    _get_log_mix_weights [x, 0] = none := by
  unfold _get_log_mix_weights
  rw [show (List.sum [x, (0 : ℝ)] + 1) = x + 1 from by simp]
  rw [log_gamma_of_pos (by linarith)]
  simp only [Option.bind_eq_bind, Option.some_bind]
  rw [show List.range ([x, (0 : ℝ)].length) = [0, 1] from by rfl]
  simp [mix_weights_loop, numerator_two_zero x hx]

theorem pos_mem_pair {x y : ℝ} (hx : 0 < x) (hy : 0 < y) :
    ∀ z ∈ [x, y], 0 < z := by
  intro z hz
  rcases List.mem_cons.mp hz with rfl | hz
  · exact hx
  · rw [List.mem_singleton] at hz
    rw [hz]
    exact hy

theorem pos_mem_singleton {x : ℝ} (hx : 0 < x) : ∀ z ∈ [x], 0 < z := by
  intro z hz
  rw [List.mem_singleton] at hz
  rw [hz]
  exact hx

/-- C4 (amended): for every pseudo-count sequence `delta` with strictly
positive entries, `_get_log_mix_weights` returns one log-weight per
component, with `weight_i = log_gamma(delta_i + 1) + Σ_{j ≠ i}
log_gamma(delta_j) − log_gamma(Σ delta + 1)` (the list
`mix_weights_spec delta`), and `Likelihood.__init__` applies this same
derivation independently to `delta_r` and `delta_v`.  As stated, over all
non-negative sequences, the claim fails: a zero entry makes `math.lgamma`
raise inside the `j ≠ i` product, see the counterexample. -/
theorem mix_weights_closed_form_pos (delta : List ℝ) (dp : DataPoint)
    (base : Likelihood) (hpos : ∀ x ∈ delta, 0 < x)
    (hdr : ∀ x ∈ dp.delta_r, 0 < x) (hdv : ∀ x ∈ dp.delta_v, 0 < x)
    (hinit : Likelihood.init dp = some base) :
    _get_log_mix_weights delta = some (mix_weights_spec delta) ∧
      (mix_weights_spec delta).length = delta.length ∧
      base.log_pi_r = mix_weights_spec dp.delta_r ∧
      base.log_pi_v = mix_weights_spec dp.delta_v := by
  obtain ⟨hwr, hwv, -, -, -⟩ := likelihood_init_inv hinit
  refine ⟨mix_weights_of_pos delta hpos, by simp [mix_weights_spec], ?_, ?_⟩
  · have h2 := mix_weights_of_pos dp.delta_r hdr
    rw [hwr] at h2
    exact Option.some_inj.mp h2
  · have h2 := mix_weights_of_pos dp.delta_v hdv
    rw [hwv] at h2
    exact Option.some_inj.mp h2

/-- C4 counterexample: the claim quantifies over all non-negative
pseudo-count sequences, but on `delta = [1, 0]` the derivation evaluates
`log_gamma(0)` (for `j ≠ i` with `delta_j = 0`), which raises, so no list of
weights is returned at all. -/
theorem mix_weights_zero_entry_fails :
    _get_log_mix_weights [(1 : ℝ), 0] = none :=
  mw_two_zero 1 (by norm_num)

/-- Witness for the amended C4 at `delta = [2, 1]` and the example data
point `dpEx`. -/
theorem mix_weights_closed_form_pos_witness :
    (∀ x ∈ [(2 : ℝ), 1], 0 < x) ∧ (∀ x ∈ dpEx.delta_r, 0 < x) ∧
      Likelihood.init dpEx = some LbaseEx ∧
      _get_log_mix_weights [(2 : ℝ), 1] =
        some (mix_weights_spec [(2 : ℝ), 1]) ∧
      LbaseEx.log_pi_r = mix_weights_spec dpEx.delta_r := by
  have hpos : ∀ x ∈ [(2 : ℝ), 1], 0 < x :=
    pos_mem_pair (by norm_num) (by norm_num)
  have hdr : ∀ x ∈ dpEx.delta_r, 0 < x := pos_mem_singleton (by norm_num)
  refine ⟨hpos, hdr, likelihood_init_ex, ?_, ?_⟩
  · exact (mix_weights_closed_form_pos [(2 : ℝ), 1] dpEx LbaseEx hpos hdr hdr
      likelihood_init_ex).1
  · exact (mix_weights_closed_form_pos [(2 : ℝ), 1] dpEx LbaseEx hpos hdr hdr
      likelihood_init_ex).2.2.1

/-- C5 (amended): for every strictly positive pseudo-count sequence `delta`
of length `k ≥ 1`, the exponentials of the derived log-weights sum to
`(Π_j Γ(delta_j)) / Γ(Σ_j delta_j)` — not to `1`.  The weights are the
unnormalized Dirichlet-style numerators `B(delta + e_i)`; their sum is `1`
only when that Gamma ratio is `1` (e.g. all `delta_j = 1`), see the
counterexample. -/
theorem mix_weights_sum_exp_eq_gamma_ratio (delta ws : List ℝ)
    (hk : 1 ≤ delta.length) (hpos : ∀ x ∈ delta, 0 < x)
    (h : _get_log_mix_weights delta = some ws) :
    (ws.map Real.exp).sum =
      (delta.map Real.Gamma).prod / Real.Gamma delta.sum := by
  have hspec := mix_weights_of_pos delta hpos
  rw [h] at hspec
  obtain rfl := Option.some_inj.mp hspec
  exact mix_weights_spec_sum_exp delta hk hpos

/-- C5 counterexample: on the non-negative sequence `delta = [2, 1]` the
derived weights' exponentials sum to `1/2`, not `1`. -/
theorem mix_weights_sum_exp_ne_one :
    (((_get_log_mix_weights [(2 : ℝ), 1]).getD []).map Real.exp).sum = 1 / 2 ∧
      (1 : ℝ) / 2 ≠ 1 := by
  constructor
  · have hpos : ∀ x ∈ [(2 : ℝ), 1], 0 < x :=
      pos_mem_pair (by norm_num) (by norm_num)
    rw [mix_weights_of_pos _ hpos]
    simp only [Option.getD_some]
    rw [mix_weights_spec_sum_exp [(2 : ℝ), 1] (by simp) hpos]
    rw [show List.sum [(2 : ℝ), 1] = 3 from by norm_num]
    simp only [List.map_cons, List.map_nil, List.prod_cons, List.prod_nil]
    rw [Real.Gamma_two, Real.Gamma_one,
      show (3 : ℝ) = 2 + 1 from by norm_num,
      Real.Gamma_add_one (by norm_num), Real.Gamma_two]
    norm_num
  · norm_num

/-- Witness for the amended C5 at `delta = [2, 1]`. -/
theorem mix_weights_sum_exp_eq_gamma_ratio_witness :
    1 ≤ ([(2 : ℝ), 1] : List ℝ).length ∧ (∀ x ∈ [(2 : ℝ), 1], 0 < x) ∧
      _get_log_mix_weights [(2 : ℝ), 1] =
        some (mix_weights_spec [(2 : ℝ), 1]) ∧
      ((mix_weights_spec [(2 : ℝ), 1]).map Real.exp).sum =
        (([(2 : ℝ), 1] : List ℝ).map Real.Gamma).prod /
          Real.Gamma (List.sum [(2 : ℝ), 1]) := by
  have hpos : ∀ x ∈ [(2 : ℝ), 1], 0 < x :=
    pos_mem_pair (by norm_num) (by norm_num)
  have hmw := mix_weights_of_pos [(2 : ℝ), 1] hpos
  exact ⟨by simp, hpos, hmw,
    mix_weights_sum_exp_eq_gamma_ratio [(2 : ℝ), 1] _ (by simp) hpos hmw⟩

/-- C6 (amended): every log-weight is a (finite) real number — the
derivation succeeds — whenever all pseudo-count entries are strictly
positive.  As stated, for all non-negative entries including zeros, the
claim fails: the derivation evaluates `log_gamma` at the raw entry
`delta_j` (not `delta_j + 1`) inside the `j ≠ i` product, and
`math.lgamma(0)` diverges (raises), see the counterexample. -/
theorem mix_weights_defined_of_pos (delta : List ℝ)
    (hpos : ∀ x ∈ delta, 0 < x) :
    (_get_log_mix_weights delta).isSome = true := by
  rw [mix_weights_of_pos delta hpos]
  rfl

/-- C6 counterexample: on the non-negative sequence `delta = [3, 0]` the
derivation hits the pole of `log_gamma` at `0` and fails instead of
returning finite weights. -/
theorem mix_weights_zero_entry_not_finite :
    _get_log_mix_weights [(3 : ℝ), 0] = none :=
  mw_two_zero 3 (by norm_num)

/-- Witness for the amended C6 at `delta = [1, 2]`. -/
theorem mix_weights_defined_of_pos_witness :
    (∀ x ∈ [(1 : ℝ), 2], 0 < x) ∧
      (_get_log_mix_weights [(1 : ℝ), 2]).isSome = true := by
  have hpos : ∀ x ∈ [(1 : ℝ), 2], 0 < x :=
    pos_mem_pair (by norm_num) (by norm_num)
  exact ⟨hpos, mix_weights_defined_of_pos _ hpos⟩

/-- C9: the abstract base `Likelihood._log_likelihood` — whose body is
`raise NotImplemented`, itself raising a `TypeError` in Python 3 — always
fails and never returns a log-likelihood value. -/
theorem base_log_likelihood_never_returns :
    ∀ (L : Likelihood) (phi r : ℝ),
      Likelihood._log_likelihood L phi = none ∧
        Likelihood._log_likelihood L phi ≠ some r := by
  intro L phi r
  exact ⟨rfl, by simp [Likelihood._log_likelihood]⟩

/-- Witness for C9 at the example base likelihood, `phi = 0`, `r = 1`. -/
theorem base_log_likelihood_never_returns_witness :
    Likelihood._log_likelihood LbaseEx 0 = none ∧
      Likelihood._log_likelihood LbaseEx 0 ≠ some 1 :=
  base_log_likelihood_never_returns LbaseEx 0 1

/-- C10: for every `BetaBinomialLikelihood` built with `mesh_size = M ≥ 1`,
the mesh has `M` points, point `i` is `(2i + 1) / (2M)`, the mesh is
strictly increasing, and every mesh point lies strictly inside `(0, 1)` —
so `_log_beta_binomial_likelihood`, which evaluates `log_beta_pdf` exactly
at the mesh points, never evaluates it at the boundary `0` or `1`. -/
theorem mesh_strictly_inside_unit_interval (dp : DataPoint) (M : ℕ) (s : ℝ)
    (L : BetaBinomialLikelihood) (hM : 1 ≤ M)
    (h : BetaBinomialLikelihood.init dp M s = some L) :
    L._mesh.length = M ∧
      (∀ i, i < M →
        L._mesh.getD i 0 = (2 * (i : ℝ) + 1) / (2 * (M : ℝ))) ∧
      List.Pairwise (· < ·) L._mesh ∧
      (∀ x ∈ L._mesh, 0 < x ∧ x < 1) := by
  obtain ⟨-, -, -, -, hmesh, -⟩ := betabinomial_init_inv h
  rw [hmesh]
  exact ⟨mesh_length M, fun i hi => mesh_getD hM hi, mesh_pairwise hM,
    mesh_mem_Ioo hM⟩

/-- Witness for C10 at the example data point with `mesh_size = 2`. -/
theorem mesh_strictly_inside_unit_interval_witness :
    1 ≤ 2 ∧ BetaBinomialLikelihood.init dpEx 2 100 = some LbetaEx ∧
      LbetaEx._mesh.length = 2 ∧ (∀ x ∈ LbetaEx._mesh, 0 < x ∧ x < 1) := by
  refine ⟨by norm_num, betabinomial_init_ex, ?_, ?_⟩
  · exact (mesh_strictly_inside_unit_interval dpEx 2 100 LbetaEx (by norm_num)
      betabinomial_init_ex).1
  · exact (mesh_strictly_inside_unit_interval dpEx 2 100 LbetaEx (by norm_num)
      betabinomial_init_ex).2.2.2

/-- C1: for every `BinomialLikelihood` built from a `DataPoint` (satisfying
the documented length invariants `len mu_r = len delta_r`,
`len mu_v = len delta_v`), the shared binomial kernel equals
`log_binomial_coefficient(d, a) + log_binomial_likelihood(a, d,
(1 − phi)·mu_r + phi·mu_v)`, and `_log_likelihood phi` is the log-sum-exp
over the full cross product of reference components `i` and variant
components `j` of `log_pi_r[i] + log_pi_v[j] + kernel(phi, mu_r[i],
mu_v[j])`. -/
theorem binomial_kernel_and_cross_product (dp : DataPoint)
    (L : BinomialLikelihood) (phi : ℝ)
    (hr : dp.mu_r.length = dp.delta_r.length)
    (hv : dp.mu_v.length = dp.delta_v.length)
    (h : BinomialLikelihood.init dp = some L) :
    (∀ mu_r mu_v : ℝ,
      L.toLikelihood._log_binomial_likelihood phi mu_r mu_v =
        log_binomial_coefficient L.d L.a +
          log_binomial_likelihood L.a L.d ((1 - phi) * mu_r + phi * mu_v)) ∧
    L._log_likelihood phi =
      log_sum_exp (((List.range L.mu_r.length).map (fun i =>
        (List.range L.mu_v.length).map (fun j =>
          L.log_pi_r.getD i 0 + L.log_pi_v.getD j 0 +
            L.toLikelihood._log_binomial_likelihood phi
              (L.mu_r.getD i 0) (L.mu_v.getD j 0)))).flatten) := by
  obtain ⟨hbase, hmur, hmuv⟩ := binomial_init_inv h
  obtain ⟨hwr, hwv, ha, hd, hnc⟩ := likelihood_init_inv hbase
  have hlenr : L.mu_r.length = L.log_pi_r.length := by
    rw [hmur, hr, ← mix_weights_length hwr]
  have hlenv : L.mu_v.length = L.log_pi_v.length := by
    rw [hmuv, hv, ← mix_weights_length hwv]
  constructor
  · intro mu_r mu_v
    unfold Likelihood._log_binomial_likelihood
    rw [hnc, ha, hd]
  · unfold BinomialLikelihood._log_likelihood
    apply congrArg log_sum_exp
    apply congrArg List.flatten
    refine (zip_map_eq_range
      (fun a b => (L.mu_v.zip L.log_pi_v).map (fun pv =>
        b + pv.2 + L.toLikelihood._log_binomial_likelihood phi a pv.1))
      0 0 L.mu_r L.log_pi_r hlenr).trans ?_
    apply List.map_congr_left
    intro i _
    exact zip_map_eq_range
      (fun a b => L.log_pi_r.getD i 0 + b +
        L.toLikelihood._log_binomial_likelihood phi (L.mu_r.getD i 0) a)
      0 0 L.mu_v L.log_pi_v hlenv

/-- Witness for C1 at the example data point, `phi = 0`. -/
theorem binomial_kernel_and_cross_product_witness :
    dpEx.mu_r.length = dpEx.delta_r.length ∧
      BinomialLikelihood.init dpEx = some LbinEx ∧
      LbinEx.toLikelihood._log_binomial_likelihood 0 (1 / 2) (1 / 2) =
        log_binomial_coefficient LbinEx.d LbinEx.a +
          log_binomial_likelihood LbinEx.a LbinEx.d
            ((1 - 0) * (1 / 2) + 0 * (1 / 2)) ∧
      LbinEx._log_likelihood 0 =
        log_sum_exp (((List.range LbinEx.mu_r.length).map (fun i =>
          (List.range LbinEx.mu_v.length).map (fun j =>
            LbinEx.log_pi_r.getD i 0 + LbinEx.log_pi_v.getD j 0 +
              LbinEx.toLikelihood._log_binomial_likelihood 0
                (LbinEx.mu_r.getD i 0) (LbinEx.mu_v.getD j 0)))).flatten) := by
  refine ⟨rfl, binomial_init_ex, ?_, ?_⟩
  · exact (binomial_kernel_and_cross_product dpEx LbinEx 0 rfl rfl
      binomial_init_ex).1 (1 / 2) (1 / 2)
  · exact (binomial_kernel_and_cross_product dpEx LbinEx 0 rfl rfl
      binomial_init_ex).2

/-- C2: for every `BetaBinomialLikelihood` built with precision `s` and
`mesh_size = M` (from a `DataPoint` satisfying the documented length
invariants), `alpha_v[j] = s·mu_v[j]` and `beta_v[j] = s − alpha_v[j]`, and
`_log_likelihood phi` is a log-sum-exp over all reference/variant component
pairs `(i, j)` of `log_pi_r[i] + log_pi_v[j]` plus an inner log-sum-exp over
the mesh midpoints `m` of `kernel(phi, mu_r[i], m) + log_beta_pdf(m,
alpha_v[j], beta_v[j]) + log(1/M)`. -/
theorem beta_binomial_params_and_cross_product (dp : DataPoint) (M : ℕ)
    (s phi : ℝ) (L : BetaBinomialLikelihood)
    (hr : dp.mu_r.length = dp.delta_r.length)
    (hv : dp.mu_v.length = dp.delta_v.length)
    (h : BetaBinomialLikelihood.init dp M s = some L) :
    L.alpha_v = dp.mu_v.map (fun m => s * m) ∧
    (∀ j, j < L.alpha_v.length →
      L.beta_v.getD j 0 = s - L.alpha_v.getD j 0) ∧
    L._log_likelihood phi =
      log_sum_exp (((List.range L.mu_r.length).map (fun i =>
        (List.range L.alpha_v.length).map (fun j =>
          L.log_pi_r.getD i 0 + L.log_pi_v.getD j 0 +
            log_sum_exp (L._mesh.map (fun m =>
              L.toLikelihood._log_binomial_likelihood phi
                  (L.mu_r.getD i 0) m +
                log_beta_pdf m (L.alpha_v.getD j 0) (L.beta_v.getD j 0) +
                Real.log (1 / (M : ℝ))))))).flatten) := by
  obtain ⟨hbase, hmur, halpha, hbeta, hmesh, hxi⟩ :=
    betabinomial_init_inv h
  obtain ⟨hwr, hwv, ha, hd, hnc⟩ := likelihood_init_inv hbase
  refine ⟨?_, ?_, ?_⟩
  · exact halpha.trans rfl
  · intro j hj
    rw [halpha] at hj
    unfold set_alpha_v at hj
    rw [List.length_map] at hj
    rw [halpha, hbeta]
    unfold set_alpha_v set_beta_v
    rw [List.getD_eq_getElem _ 0 (by simpa using hj),
      List.getD_eq_getElem _ 0 (by simpa using hj)]
    simp only [List.getElem_map]
  · have hlenr : L.mu_r.length = L.log_pi_r.length := by
      rw [hmur, hr, ← mix_weights_length hwr]
    have hlenab : L.alpha_v.length = L.beta_v.length := by
      rw [halpha, hbeta]
      unfold set_alpha_v set_beta_v
      simp
    have hlenbv : L.beta_v.length = L.log_pi_v.length := by
      rw [hbeta]
      unfold set_beta_v
      rw [List.length_map, hv, ← mix_weights_length hwv]
    unfold BetaBinomialLikelihood._log_likelihood
    apply congrArg log_sum_exp
    apply congrArg List.flatten
    refine (zip_map_eq_range
      (fun a b => (L.alpha_v.zip (L.beta_v.zip L.log_pi_v)).map (fun q =>
        b + q.2.2 + L._log_beta_binomial_likelihood phi a q.1 q.2.1))
      0 0 L.mu_r L.log_pi_r hlenr).trans ?_
    apply List.map_congr_left
    intro i _
    refine (zip3_map_eq_range
      (fun a b c => L.log_pi_r.getD i 0 + c +
        L._log_beta_binomial_likelihood phi (L.mu_r.getD i 0) a b)
      0 0 0 L.alpha_v L.beta_v L.log_pi_v hlenab hlenbv).trans ?_
    apply List.map_congr_left
    intro j _
    congr 1
    unfold BetaBinomialLikelihood._log_beta_binomial_likelihood
    apply congrArg log_sum_exp
    apply List.map_congr_left
    intro m _
    congr 1
    rw [hxi, one_div, Real.log_inv]

/-- Witness for C2 at the example data point, `mesh_size = 2`,
`beta_precision = 100`, `phi = 0`. -/
theorem beta_binomial_params_and_cross_product_witness :
    dpEx.mu_r.length = dpEx.delta_r.length ∧
      BetaBinomialLikelihood.init dpEx 2 100 = some LbetaEx ∧
      LbetaEx.alpha_v = dpEx.mu_v.map (fun m => (100 : ℝ) * m) ∧
      (∀ j, j < LbetaEx.alpha_v.length →
        LbetaEx.beta_v.getD j 0 = 100 - LbetaEx.alpha_v.getD j 0) := by
  refine ⟨rfl, betabinomial_init_ex, ?_, ?_⟩
  · exact (beta_binomial_params_and_cross_product dpEx 2 100 0 LbetaEx rfl rfl
      betabinomial_init_ex).1
  · exact (beta_binomial_params_and_cross_product dpEx 2 100 0 LbetaEx rfl rfl
      betabinomial_init_ex).2.1

theorem zip_map_snd_mul (as bs : List ℝ) (w : ℝ)
    (hlen : as.length = bs.length) :
    ((as.zip bs).map (fun p => p.2 * w)) = bs.map (fun d => d * w) := by
  apply List.ext_getElem
  · simp [hlen]
  · intro k h1 h2
    simp only [List.getElem_map, List.getElem_zip]

/-- C3: for every data point and `num_bins = N ≥ 1`,
`get_independent_posterior` drives a `BinomialLikelihood` (never the
beta-binomial variant) over the `N` strictly increasing bin centers
`(i + 1/2)/N`, and returns exactly `N` pairs whose second components are
`exp(loglik at the center − log-sum-exp of (loglik + log(1/N)) over all
bins)`, so that `Σ density_i · (1/N) = 1`. -/
theorem independent_posterior_spec (dp : DataPoint) (N : ℕ)
    (L : BinomialLikelihood) (hN : 1 ≤ N)
    (h : BinomialLikelihood.init dp = some L) :
    get_independent_posterior dp N =
      some ((binCentres N).zip
        (((binCentres N).map L._log_likelihood).map (fun x =>
          Real.exp (x - log_sum_exp
            (((binCentres N).map L._log_likelihood).map (fun y =>
              y + Real.log (1 / (N : ℝ)))))))) ∧
    (∀ res, get_independent_posterior dp N = some res →
      res.length = N ∧
      res.map Prod.fst = binCentres N ∧
      List.Pairwise (· < ·) (res.map Prod.fst) ∧
      (res.map (fun p => p.2 * (1 / (N : ℝ)))).sum = 1) := by
  have hco := cacheCoherent_nil (L._log_likelihood)
  have hll := (run_lls_map (binCentres N) [] hco).1
  have hmain : get_independent_posterior dp N =
      some ((binCentres N).zip
        (((binCentres N).map L._log_likelihood).map (fun x =>
          Real.exp (x - log_sum_exp
            (((binCentres N).map L._log_likelihood).map (fun y =>
              y + Real.log (1 / (N : ℝ)))))))) := by
    unfold get_independent_posterior
    rw [h]
    simp only [Option.bind_eq_bind, Option.some_bind, Option.pure_def]
    rw [posterior_bin_centres N hN, hll]
  refine ⟨hmain, ?_⟩
  intro res hres
  rw [hmain] at hres
  obtain rfl := (Option.some_inj.mp hres).symm
  have hlenC : (binCentres N).length = N := binCentres_length N
  have hlenP : (((binCentres N).map L._log_likelihood).map (fun x =>
      Real.exp (x - log_sum_exp
        (((binCentres N).map L._log_likelihood).map (fun y =>
          y + Real.log (1 / (N : ℝ))))))).length = N := by
    rw [List.length_map, List.length_map, hlenC]
  have hle : (binCentres N).length ≤ (((binCentres N).map
      L._log_likelihood).map (fun x =>
      Real.exp (x - log_sum_exp
        (((binCentres N).map L._log_likelihood).map (fun y =>
          y + Real.log (1 / (N : ℝ))))))).length := by
    rw [hlenC, hlenP]
  refine ⟨?_, ?_, ?_, ?_⟩
  · rw [List.length_zip, hlenC, hlenP]
    exact Nat.min_self N
  · exact List.map_fst_zip _ _ hle
  · rw [List.map_fst_zip _ _ hle]
    exact binCentres_pairwise N
  · rw [zip_map_snd_mul _ _ _ (by rw [hlenC, hlenP])]
    have hN0 : (0 : ℝ) < (N : ℝ) := by
      exact_mod_cast (show 0 < N by omega)
    have hw : 0 < 1 / (N : ℝ) := by positivity
    have hne : (binCentres N).map L._log_likelihood ≠ [] := by
      apply List.length_pos.mp
      rw [List.length_map, hlenC]
      omega
    exact pdf_sum_eq_one ((binCentres N).map L._log_likelihood)
      (1 / (N : ℝ)) hw hne

/-- Witness for C3 at the example data point with `num_bins = 2`. -/
theorem independent_posterior_spec_witness :
    1 ≤ 2 ∧ BinomialLikelihood.init dpEx = some LbinEx ∧
      (∀ res, get_independent_posterior dpEx 2 = some res →
        res.length = 2 ∧
        res.map Prod.fst = binCentres 2 ∧
        List.Pairwise (· < ·) (res.map Prod.fst) ∧
        (res.map (fun p => p.2 * (1 / ((2 : ℕ) : ℝ)))).sum = 1) :=
  ⟨by norm_num, binomial_init_ex,
    (independent_posterior_spec dpEx 2 LbinEx (by norm_num)
      binomial_init_ex).2⟩

/-- C7: `compute_log_likelihood` keeps the memo cache at no more than 1000
entries; when a miss pushes it past 1000, exactly the single
oldest-inserted entry is dropped (FIFO/oldest-first eviction); hence after
inserting 1001 distinct `phi` keys into a fresh instance the
earliest-inserted key is no longer cached. -/
theorem cache_bounded_and_fifo_eviction (f : ℝ → ℝ) (phis : List ℝ)
    (hlen : phis.length = 1001) (hnd : phis.Nodup) :
    (∀ (cache : LLCache) (phi : ℝ), cache.length ≤ 1000 →
      ((compute_log_likelihood f cache phi).2).length ≤ 1000) ∧
    (∀ (cache : LLCache) (phi : ℝ), cacheLookup cache phi = none →
      cache.length = 1000 →
      (compute_log_likelihood f cache phi).2 =
        cache.drop 1 ++ [(phi, f phi)]) ∧
    ((run_lls f phis []).2).length = 1000 ∧
    cacheLookup ((run_lls f phis []).2) (phis.getD 0 0) = none := by
  have hne : phis ≠ [] := by
    intro hc
    rw [hc] at hlen
    simp at hlen
  obtain ⟨xs, y, hphis⟩ : ∃ xs y, phis = xs ++ [y] :=
    ⟨phis.dropLast, phis.getLast hne, (List.dropLast_append_getLast hne).symm⟩
  have hxs_len : xs.length = 1000 := by
    have h1 := hlen
    rw [hphis, List.length_append, List.length_cons, List.length_nil] at h1
    omega
  have hnd' := hnd
  rw [hphis] at hnd'
  have hnd_parts := List.nodup_append.mp hnd'
  have hfresh : (run_lls f xs []).2 = xs.map (fun p => (p, f p)) := by
    have h0 := run_lls_fresh f xs [] (by simpa using hnd_parts.1)
      (by simp [hxs_len])
    simpa using h0
  have hy_notin : y ∉ xs := by
    intro hmem
    exact hnd_parts.2.2 hmem (List.mem_singleton_self y)
  have hlook_y : cacheLookup (xs.map (fun p => (p, f p))) y = none :=
    cacheLookup_map_pair_none hy_notin
  have hcompute : (compute_log_likelihood f (xs.map (fun p => (p, f p))) y).2 =
      (xs.map (fun p => (p, f p))).drop 1 ++ [(y, f y)] := by
    rw [compute_miss hlook_y]
    dsimp only
    rw [if_pos (by simp [hxs_len])]
    rw [List.drop_append_of_le_length (by simp [hxs_len])]
  have hcache : (run_lls f phis []).2 =
      (xs.map (fun p => (p, f p))).drop 1 ++ [(y, f y)] := by
    rw [hphis, run_lls_append, hfresh]
    show (compute_log_likelihood f (xs.map (fun p => (p, f p))) y).2 = _
    exact hcompute
  refine ⟨?_, ?_, ?_, ?_⟩
  · intro cache phi hc
    cases hl : cacheLookup cache phi with
    | some v =>
      rw [compute_hit hl]
      exact hc
    | none =>
      rw [compute_miss hl]
      dsimp only
      split_ifs with h1
      · simp only [List.length_drop, List.length_append, List.length_cons,
          List.length_nil]
        omega
      · simp only [List.length_append, List.length_cons, List.length_nil] at h1 ⊢
        omega
  · intro cache phi hl hc
    rw [compute_miss hl]
    dsimp only
    rw [if_pos (by simp [hc])]
    rw [List.drop_append_of_le_length (by simp [hc])]
  · rw [hcache]
    simp [hxs_len]
  · rw [hcache]
    cases xs with
    | nil => simp at hxs_len
    | cons x xs' =>
      have hget : phis.getD 0 0 = x := by
        rw [hphis]
        rfl
      rw [hget, List.map_cons]
      rw [show ((x, f x) :: xs'.map (fun p => (p, f p))).drop 1 =
        xs'.map (fun p => (p, f p)) from rfl]
      rw [cacheLookup_eq_none_iff]
      intro q hq
      rcases List.mem_append.mp hq with hq | hq
      · obtain ⟨z, hz, rfl⟩ := List.mem_map.mp hq
        intro hcontra
        have hx_nodup := hnd_parts.1
        rw [List.nodup_cons] at hx_nodup
        exact hx_nodup.1 (hcontra ▸ hz)
      · rw [List.mem_singleton] at hq
        rw [hq]
        intro hcontra
        exact hnd_parts.2.2 (List.mem_cons_self x xs')
          (List.mem_singleton.mpr hcontra.symm)

/-- Witness for C7: 1001 distinct keys `0, 1, …, 1000` inserted in order
into a fresh cache; the earliest key `0` is evicted. -/
theorem cache_bounded_and_fifo_eviction_witness :
    ((List.range 1001).map (fun n : ℕ => (n : ℝ))).length = 1001 ∧
      ((List.range 1001).map (fun n : ℕ => (n : ℝ))).Nodup ∧
      cacheLookup ((run_lls (fun _ => (0 : ℝ))
          ((List.range 1001).map (fun n : ℕ => (n : ℝ))) []).2)
        (((List.range 1001).map (fun n : ℕ => (n : ℝ))).getD 0 0) = none := by
  have hlen : ((List.range 1001).map (fun n : ℕ => (n : ℝ))).length = 1001 := by
    simp
  have hnd : ((List.range 1001).map (fun n : ℕ => (n : ℝ))).Nodup :=
    (List.nodup_range 1001).map Nat.cast_injective
  exact ⟨hlen, hnd,
    (cache_bounded_and_fifo_eviction (fun _ => (0 : ℝ)) _ hlen hnd).2.2.2⟩

/-- C8: for a coherent cache, the memoized `compute_log_likelihood` returns
exactly what the uncached kernel computes, keeps the cache coherent, is
idempotent on an immediately repeated identical `phi` (the second call is a
pure cache hit: same value, cache untouched, kernel not re-run), caches the
value under the exact key just used, and distinct keys occupy distinct
entries (inserting `phi` does not disturb the entry of any `phi' ≠ phi`,
below capacity). -/
theorem cache_memoization_equiv (f : ℝ → ℝ) (cache : LLCache) (phi : ℝ)
    (hco : CacheCoherent f cache) :
    (compute_log_likelihood f cache phi).1 = f phi ∧
      CacheCoherent f (compute_log_likelihood f cache phi).2 ∧
      compute_log_likelihood f (compute_log_likelihood f cache phi).2 phi =
        ((compute_log_likelihood f cache phi).1,
          (compute_log_likelihood f cache phi).2) ∧
      cacheLookup (compute_log_likelihood f cache phi).2 phi =
        some ((compute_log_likelihood f cache phi).1) ∧
      (∀ phi' w : ℝ, phi ≠ phi' → cache.length < 1000 →
        cacheLookup cache phi' = some w →
        cacheLookup (compute_log_likelihood f cache phi).2 phi' = some w) := by
  refine ⟨compute_fst phi hco, compute_coherent phi hco, compute_idem phi,
    compute_lookup_self phi, ?_⟩
  intro phi' w hnekeys hlen hl
  cases hl0 : cacheLookup cache phi with
  | some v =>
    rw [compute_hit hl0]
    exact hl
  | none =>
    rw [compute_miss hl0]
    dsimp only
    rw [if_neg (by simp only [List.length_append, List.length_cons,
      List.length_nil]; omega)]
    exact cacheLookup_append_left hl

/-- Witness for C8 on the empty cache with the constant-zero kernel at
`phi = 0`. -/
theorem cache_memoization_equiv_witness :
    CacheCoherent (fun _ => (0 : ℝ)) [] ∧
      (compute_log_likelihood (fun _ => (0 : ℝ)) [] 0).1 = 0 ∧
      cacheLookup (compute_log_likelihood (fun _ => (0 : ℝ)) [] 0).2 0 =
        some ((compute_log_likelihood (fun _ => (0 : ℝ)) [] 0).1) := by
  have hco : CacheCoherent (fun _ => (0 : ℝ)) [] := cacheCoherent_nil _
  exact ⟨hco, (cache_memoization_equiv (fun _ => (0 : ℝ)) [] 0 hco).1,
    (cache_memoization_equiv (fun _ => (0 : ℝ)) [] 0 hco).2.2.2.1⟩

end
